import Mathlib

set_option maxHeartbeats 1000000

namespace MpiDep

/-- An SSA value as seen through an operand or user edge: either an
instruction, identified by a numeric id standing for its address, or any
non-instruction value (constant, basic-block label, function reference). -/
inductive Value where
  | instr : Nat → Value
  | other : Value
deriving DecidableEq, Repr

/-- One IR instruction: the id of its enclosing basic block
(`getParent`), whether it is a stack allocation (`AllocaInst`), its
ordered operand list (`op_begin..op_end`) and its user list
(`use_begin..use_end`). -/
structure Instruction where
  parent : Nat
  isAlloca : Bool
  operands : List Value
  users : List Value
deriving DecidableEq, Repr

/-- A basic block: its predecessor blocks (`pred_begin..pred_end`) and the
id of its terminator instruction (`getTerminator`). -/
structure BasicBlock where
  preds : List Nat
  terminator : Nat
deriving DecidableEq, Repr

/-- A function of the module: its symbol name (`getName`) and the uses of
the function value (`use_begin..use_end`); call sites are exactly the uses
whose user is an instruction. -/
structure Function where
  name : String
  users : List Value
deriving DecidableEq, Repr

/-- A module: its ordered function list, and the dereference maps from
instruction ids and block ids to the nodes they denote. -/
structure Module where
  functions : List Function
  instrOf : Nat → Instruction
  blockOf : Nat → BasicBlock

/-- Failure of sink resolution: the `assert(Send == nullptr)` /
`assert(Recv == nullptr)` failures (a name matched twice) are `ambiguous`,
the final `assert(Send != nullptr)` / `assert(Recv != nullptr)` failures
(a name never matched) are `missing`. -/
inductive SinkError where
  | missing
  | ambiguous
deriving DecidableEq, Repr

/-- The analysis-local state of the `MpiDepAnalysis` pass object: the
member sets `BasicDeps`, `Deps` and `Worklist`, and the four global
`STATISTIC` counters.  None of these are reset between invocations of
`runOnModule`. -/
structure AState where
  basicDeps : List Nat
  deps : List Nat
  worklist : List Nat
  sendCounter : Nat
  recvCounter : Nat
  sendBBCounter : Nat
  recvBBCounter : Nat
deriving DecidableEq, Repr

/-- The state of a freshly constructed pass: empty sets, zero counters. -/
def AState.init : AState := ⟨[], [], [], 0, 0, 0, 0⟩

/-- The instruction ids among a list of values: the elements surviving
`dyn_cast<Instruction>`. -/
def instrIds (vs : List Value) : List Nat :=
  vs.filterMap (fun v => match v with | Value.instr i => some i | Value.other => none)

/-- The enclosing blocks of the instructions among a list of values. -/
def instrParents (M : Module) (vs : List Value) : List Nat :=
  (instrIds vs).map (fun i => (M.instrOf i).parent)

/-- The loop body of `initSendRecv`: scan the function list, binding a
function whose name equals `SendName` to the send slot, otherwise (else-if)
one whose name equals `RecvName` to the receive slot; a second match on an
already filled slot fails the `assert(... == nullptr)`, and an unfilled
slot at the end fails the `assert(... != nullptr)`. -/
def initSendRecvLoop (sendName recvName : String) :
    List Function → Option Function → Option Function →
    Except SinkError (Function × Function)
  | [], send, recv =>
    match send, recv with
    | some s, some r => Except.ok (s, r)
    | _, _ => Except.error SinkError.missing
  | F :: rest, send, recv =>
    if sendName = F.name then
      match send with
      | some _ => Except.error SinkError.ambiguous
      | none => initSendRecvLoop sendName recvName rest (some F) recv
    else if recvName = F.name then
      match recv with
      | some _ => Except.error SinkError.ambiguous
      | none => initSendRecvLoop sendName recvName rest send (some F)
    else
      initSendRecvLoop sendName recvName rest send recv

/-- `MpiDepAnalysis::initSendRecv`: resolve the two configured sink names
over the module's function list. -/
def initSendRecv (sendName recvName : String) (M : Module) :
    Except SinkError (Function × Function) :=
  initSendRecvLoop sendName recvName M.functions none none

/-- One enumeration of `MpiDepAnalysis::initBasicDeps`: walk the uses of a
sink function; for each use whose user is an instruction, insert the
user's block into `BasicDeps` (bumping the distinct-block counter exactly
when the insert is fresh) and bump the call-site counter.  Returns the
updated `(BasicDeps, call counter, block counter)`. -/
def seedSinkUses (M : Module) (users : List Value) (bd : List Nat) (c k : Nat) :
    List Nat × Nat × Nat :=
  users.foldl
    (fun st v =>
      match v with
      | Value.instr i =>
        if (M.instrOf i).parent ∈ st.1 then (st.1, st.2.1 + 1, st.2.2)
        else (st.1 ++ [(M.instrOf i).parent], st.2.1 + 1, st.2.2 + 1)
      | Value.other => st)
    (bd, c, k)

/-- `MpiDepAnalysis::initBasicDeps`: the send enumeration runs first, then
the receive enumeration, both over the member `BasicDeps` and the global
counters carried in the state. -/
def initBasicDeps (M : Module) (send recv : Function) (st : AState) : AState :=
  let s1 := seedSinkUses M send.users st.basicDeps st.sendCounter st.sendBBCounter
  let s2 := seedSinkUses M recv.users s1.1 st.recvCounter st.recvBBCounter
  { st with
    basicDeps := s2.1
    sendCounter := s1.2.1
    sendBBCounter := s1.2.2
    recvCounter := s2.2.1
    recvBBCounter := s2.2.2 }

/-- A run of `Worklist.push_back` calls over a value list, keeping only the
values that are instructions.  The worklist is a stack; its head models the
vector's back, so each push conses onto the front. -/
def pushInstrs (vs : List Value) (wl : List Nat) : List Nat :=
  vs.foldl
    (fun w v => match v with | Value.instr i => i :: w | Value.other => w)
    wl

/-- `MpiDepAnalysis::initWorklist`: for every block in `BasicDeps`, for
every predecessor of that block, push every instruction operand of the
predecessor's terminator.  `wl0` is the content of the member `Worklist`
on entry (empty for a fresh pass). -/
def initWorklist (M : Module) (bds : List Nat) (wl0 : List Nat) : List Nat :=
  bds.foldl
    (fun wl b =>
      (M.blockOf b).preds.foldl
        (fun w p => pushInstrs (M.instrOf (M.blockOf p).terminator).operands w)
        wl)
    wl0

/-- `MpiDepAnalysis::reachFixpoint`, fuel-indexed: pop the back of the
worklist into `V`, push every instruction operand of `V` (whether or not
`V` is already in `Deps`), then attempt `Deps.insert(V)`; when the insert
is fresh and `V` is a stack allocation, push every instruction user of
`V`.  `none` means the loop has not emptied the worklist within `fuel`
iterations; a loop that diverges returns `none` for every fuel. -/
def reachFixpoint (M : Module) : Nat → List Nat → List Nat → Option (List Nat)
  | _, [], deps => some deps
  | 0, _ :: _, _ => none
  | fuel + 1, v :: wl, deps =>
    if v ∈ deps then
      reachFixpoint M fuel (pushInstrs (M.instrOf v).operands wl) deps
    else
      reachFixpoint M fuel
        (if (M.instrOf v).isAlloca = true
          then pushInstrs (M.instrOf v).users (pushInstrs (M.instrOf v).operands wl)
          else pushInstrs (M.instrOf v).operands wl)
        (deps ++ [v])

/-- `MpiDepAnalysis::printAllocaDeps`'s projection: the stack-allocation
members of `Deps`. -/
def allocaDeps (M : Module) (deps : List Nat) : List Nat :=
  deps.filter (fun i => (M.instrOf i).isAlloca)

/-- `MpiDepAnalysis::runOnModule`: resolve the sinks, seed the sink
blocks, seed the worklist, run the closure.  The incoming `st` is the
pass-object state left by earlier invocations (`AState.init` for the first
run).  `Except.ok none` means the closure loop did not finish within
`fuel` iterations. -/
def runOnModule (sendName recvName : String) (M : Module) (st : AState)
    (fuel : Nat) : Except SinkError (Option AState) :=
  match initSendRecv sendName recvName M with
  | Except.error e => Except.error e
  | Except.ok (send, recv) =>
    let st1 := initBasicDeps M send recv st
    match reachFixpoint M fuel (initWorklist M st1.basicDeps st.worklist) st1.deps with
    | none => Except.ok none
    | some deps => Except.ok (some { st1 with worklist := [], deps := deps })

/-- The send function of the scenario-S1 module: its one use is the call
instruction 6. -/
def Mod1Send : Function := ⟨"MPI_Send", [Value.instr 6]⟩

/-- The receive function of the scenario-S1 module: declared, never
called. -/
def Mod1Recv : Function := ⟨"MPI_Recv", []⟩

/-- The scenario-S1 module.  Block 0 (entry): instruction 1 is
`%a = alloca i32`, 2 is `store i32 0, %a`, 3 is `%v = load %a`, 4 is
`%c = icmp eq %v, 0`, 5 is `br %c, label %then, label %else`.  Block 1
(`then`, predecessor 0, terminator 7) holds instruction 6, the call to
`MPI_Send`.  Block 2 (`else`, predecessor 0, terminator 8) is empty but
for its terminator. -/
def Mod1 : Module where
  functions := [⟨"main", []⟩, Mod1Send, Mod1Recv]
  instrOf := fun i =>
    match i with
    | 1 => ⟨0, true, [Value.other], [Value.instr 2, Value.instr 3]⟩
    | 2 => ⟨0, false, [Value.other, Value.instr 1], []⟩
    | 3 => ⟨0, false, [Value.instr 1], [Value.instr 4]⟩
    | 4 => ⟨0, false, [Value.instr 3, Value.other], [Value.instr 5]⟩
    | 5 => ⟨0, false, [Value.instr 4, Value.other, Value.other], []⟩
    | 6 => ⟨1, false, [Value.other], []⟩
    | 7 => ⟨1, false, [Value.other], []⟩
    | _ => ⟨2, false, [Value.other], []⟩
  blockOf := fun b =>
    match b with
    | 0 => ⟨[], 5⟩
    | 1 => ⟨[0], 7⟩
    | _ => ⟨[0], 8⟩

/-- The final pass state on the scenario-S1 module: sink block 1; `Deps`
gathers %c (4), %v (3), %a (1) and the store (2); one send call site in
one block. -/
def mod1Final : AState := ⟨[1], [4, 3, 1, 2], [], 1, 0, 1, 0⟩

/-- The send function of the phi-cycle module: its one use is the call
instruction 6. -/
def ModCycSend : Function := ⟨"MPI_Send", [Value.instr 6]⟩

/-- The receive function of the phi-cycle module. -/
def ModCycRecv : Function := ⟨"MPI_Recv", []⟩

/-- A module whose SSA operand graph has a cycle reachable from the
control frontier: in block 0, instruction 1 is a phi `%i` with operand
instruction 2, instruction 2 is `%j = add %i, 1` with operand instruction
1, and the terminator 5 is a conditional branch whose condition operand is
instruction 1.  Block 1 (predecessor 0, terminator 7) calls `MPI_Send`
(instruction 6). -/
def ModCyc : Module where
  functions := [ModCycSend, ModCycRecv]
  instrOf := fun i =>
    match i with
    | 1 => ⟨0, false, [Value.other, Value.instr 2], [Value.instr 2, Value.instr 5]⟩
    | 2 => ⟨0, false, [Value.instr 1, Value.other], [Value.instr 1]⟩
    | 5 => ⟨0, false, [Value.instr 1, Value.other, Value.other], []⟩
    | 6 => ⟨1, false, [Value.other], []⟩
    | _ => ⟨1, false, [Value.other], []⟩
  blockOf := fun b =>
    match b with
    | 0 => ⟨[], 5⟩
    | _ => ⟨[0], 7⟩

/-- The send function of the shared-block module: one call site,
instruction 1. -/
def MbothSend : Function := ⟨"MPI_Send", [Value.instr 1]⟩

/-- The receive function of the shared-block module: one call site,
instruction 2. -/
def MbothRecv : Function := ⟨"MPI_Recv", [Value.instr 2]⟩

/-- The scenario-S2-like module: the single block 0 (an entry block, no
predecessors) holds one call to `MPI_Send` (instruction 1) and one call to
`MPI_Recv` (instruction 2); instruction 3 is its terminator. -/
def Mboth : Module where
  functions := [MbothSend, MbothRecv]
  instrOf := fun i =>
    match i with
    | 1 => ⟨0, false, [Value.other], []⟩
    | 2 => ⟨0, false, [Value.other], []⟩
    | _ => ⟨0, false, [], []⟩
  blockOf := fun _ => ⟨[], 3⟩

/-- The pass state after a first fresh run on the shared-block module. -/
def mbothFinal1 : AState := ⟨[0], [], [], 1, 1, 1, 0⟩

/-- The pass state after a second run on the shared-block module, reusing
the state left by the first: the call-site counters have doubled, the
distinct-block counters have not moved. -/
def mbothFinal2 : AState := ⟨[0], [], [], 2, 2, 1, 0⟩

/-- The unique function of the one-function module `Mf`. -/
def Ff : Function := ⟨"f", []⟩

/-- A module with exactly one function, named `f`, and no instructions. -/
def Mf : Module where
  functions := [Ff]
  instrOf := fun _ => ⟨0, false, [], []⟩
  blockOf := fun _ => ⟨[], 0⟩

/-- A module with two distinct functions both named `f`. -/
def Mff2 : Module where
  functions := [⟨"f", []⟩, ⟨"f", [Value.other]⟩]
  instrOf := fun _ => ⟨0, false, [], []⟩
  blockOf := fun _ => ⟨[], 0⟩

/-- `Deps` is closed under the two expansion rules of the closure loop:
(a) every instruction operand of a member is a member, and (b) every
instruction user of a stack-allocation member is a member. -/
def closedDeps (M : Module) (deps : List Nat) : Prop :=
  ∀ i ∈ deps,
    (∀ j ∈ instrIds (M.instrOf i).operands, j ∈ deps) ∧
    ((M.instrOf i).isAlloca = true → ∀ j ∈ instrIds (M.instrOf i).users, j ∈ deps)

/-- Mid-loop weakening of `closedDeps`: a required member may instead
still be pending on the worklist. -/
def pendingClosed (M : Module) (wl deps : List Nat) : Prop :=
  ∀ i ∈ deps,
    (∀ j ∈ instrIds (M.instrOf i).operands, j ∈ deps ∨ j ∈ wl) ∧
    ((M.instrOf i).isAlloca = true → ∀ j ∈ instrIds (M.instrOf i).users, j ∈ deps ∨ j ∈ wl)

/-- Instruction `i` is accounted for: it is a seed, or an operand of some
other member of `deps`, or a user of a stack-allocation member of
`deps`. -/
def justifiedBy (M : Module) (seeds deps : List Nat) (i : Nat) : Prop :=
  i ∈ seeds ∨
  (∃ m, m ∈ deps ∧ m ≠ i ∧ i ∈ instrIds (M.instrOf m).operands) ∨
  (∃ m, m ∈ deps ∧ (M.instrOf m).isAlloca = true ∧ i ∈ instrIds (M.instrOf m).users)

/-- The number of functions of a list whose name equals `n` (the
comparison `SendName == F->getName()` is byte-exact string equality). -/
def countName (n : String) : List Function → Nat
  | [] => 0
  | F :: fs => (if n = F.name then 1 else 0) + countName n fs

/-- 1 for a filled sink slot, 0 for an empty one. -/
def optCount : Option Function → Nat
  | none => 0
  | some _ => 1

/-- Proof-side restatement of one `seedSinkUses` enumeration, driven by
the list of enclosing blocks of the instruction users. -/
def parentsFold : List Nat → List Nat → Nat → Nat → List Nat × Nat × Nat
  | [], bd, c, k => (bd, c, k)
  | p :: ps, bd, c, k =>
    if p ∈ bd then parentsFold ps bd (c + 1) k
    else parentsFold ps (bd ++ [p]) (c + 1) (k + 1)

/-- The contract of sink resolution over a module, for a pair of distinct
configured names: a name matched by two or more functions yields the
ambiguous failure; otherwise a name matched by none yields the missing
failure; when both names are matched exactly once the two unique matching
functions are returned; and any resolution failure makes the whole pass
invocation fail with that error, producing no dependency set. -/
def sinkResolutionSpec (sendName recvName : String) (M : Module) (fuel : Nat) : Prop :=
  (2 ≤ countName sendName M.functions ∨ 2 ≤ countName recvName M.functions →
    initSendRecv sendName recvName M = Except.error SinkError.ambiguous) ∧
  (countName sendName M.functions ≤ 1 → countName recvName M.functions ≤ 1 →
    (countName sendName M.functions = 0 ∨ countName recvName M.functions = 0) →
    initSendRecv sendName recvName M = Except.error SinkError.missing) ∧
  (countName sendName M.functions = 1 → countName recvName M.functions = 1 →
    ∃ s r, initSendRecv sendName recvName M = Except.ok (s, r) ∧
      s ∈ M.functions ∧ sendName = s.name ∧ r ∈ M.functions ∧ recvName = r.name ∧
      (∀ g ∈ M.functions, sendName = g.name → g = s) ∧
      (∀ g ∈ M.functions, recvName = g.name → g = r)) ∧
  (∀ e, initSendRecv sendName recvName M = Except.error e →
    runOnModule sendName recvName M AState.init fuel = Except.error e)

theorem pushInstrs_eq (vs : List Value) (wl : List Nat) :
    pushInstrs vs wl = (instrIds vs).reverse ++ wl := by
  induction vs generalizing wl with
  | nil => simp [pushInstrs, instrIds]
  | cons v rest ih =>
    cases v with
    | instr i =>
      simp only [pushInstrs, List.foldl_cons, instrIds, List.filterMap_cons] at *
      rw [ih]
      simp
    | other =>
      simp only [pushInstrs, List.foldl_cons, instrIds, List.filterMap_cons] at *
      rw [ih]

theorem mem_pushInstrs (vs : List Value) (wl : List Nat) (x : Nat) :
    x ∈ pushInstrs vs wl ↔ x ∈ instrIds vs ∨ x ∈ wl := by
  rw [pushInstrs_eq]
  simp

theorem foldl_pushInstrs_mem (g : Nat → List Value) (l : List Nat) :
    ∀ wl x, x ∈ l.foldl (fun w p => pushInstrs (g p) w) wl ↔
      (∃ p ∈ l, x ∈ instrIds (g p)) ∨ x ∈ wl := by
  induction l with
  | nil => simp
  | cons p rest ih =>
    intro wl x
    rw [List.foldl_cons, ih, mem_pushInstrs]
    simp only [List.mem_cons]
    constructor
    · rintro (⟨q, hq, hx⟩ | (h | h))
      · exact Or.inl ⟨q, Or.inr hq, hx⟩
      · exact Or.inl ⟨p, Or.inl rfl, h⟩
      · exact Or.inr h
    · rintro (⟨q, (rfl | hq), hx⟩ | h)
      · exact Or.inr (Or.inl hx)
      · exact Or.inl ⟨q, hq, hx⟩
      · exact Or.inr (Or.inr h)

theorem initWorklist_mem (M : Module) (bds : List Nat) :
    ∀ wl0 x, x ∈ initWorklist M bds wl0 ↔
      (∃ b ∈ bds, ∃ p ∈ (M.blockOf b).preds,
        x ∈ instrIds (M.instrOf (M.blockOf p).terminator).operands) ∨ x ∈ wl0 := by
  induction bds with
  | nil => simp [initWorklist]
  | cons b rest ih =>
    intro wl0 x
    simp only [initWorklist] at ih ⊢
    rw [List.foldl_cons, ih,
      foldl_pushInstrs_mem (fun p => (M.instrOf (M.blockOf p).terminator).operands)]
    simp only [List.mem_cons]
    constructor
    · rintro (⟨q, hq, hx⟩ | (⟨p, hp, hx⟩ | h))
      · exact Or.inl ⟨q, Or.inr hq, hx⟩
      · exact Or.inl ⟨b, Or.inl rfl, p, hp, hx⟩
      · exact Or.inr h
    · rintro (⟨q, (rfl | hq), hx⟩ | h)
      · exact Or.inr (Or.inl hx)
      · exact Or.inl ⟨q, hq, hx⟩
      · exact Or.inr (Or.inr h)

theorem initWorklist_preds_nil (M : Module) (bds : List Nat)
    (h : ∀ b ∈ bds, (M.blockOf b).preds = []) :
    ∀ wl0, initWorklist M bds wl0 = wl0 := by
  induction bds with
  | nil => intro wl0; rfl
  | cons b rest ih =>
    intro wl0
    simp only [initWorklist] at ih ⊢
    rw [List.foldl_cons, h b (List.mem_cons_self b rest)]
    exact ih (fun q hq => h q (List.mem_cons_of_mem b hq)) wl0

theorem seedSinkUses_eq_parentsFold (M : Module) (users : List Value) :
    ∀ bd c k, seedSinkUses M users bd c k = parentsFold (instrParents M users) bd c k := by
  induction users with
  | nil => intro bd c k; rfl
  | cons v rest ih =>
    intro bd c k
    cases v with
    | instr i =>
      simp only [seedSinkUses, List.foldl_cons, instrParents, instrIds,
        List.filterMap_cons, List.map_cons] at *
      by_cases hp : (M.instrOf i).parent ∈ bd
      · rw [if_pos hp]
        simp only [parentsFold, if_pos hp]
        exact ih bd (c + 1) k
      · rw [if_neg hp]
        simp only [parentsFold, if_neg hp]
        exact ih (bd ++ [(M.instrOf i).parent]) (c + 1) (k + 1)
    | other =>
      simp only [seedSinkUses, List.foldl_cons, instrParents, instrIds,
        List.filterMap_cons] at *
      exact ih bd c k

theorem parentsFold_spec (ps : List Nat) :
    ∀ bd c k,
      (∀ x, x ∈ (parentsFold ps bd c k).1 ↔ x ∈ bd ∨ x ∈ ps) ∧
      (parentsFold ps bd c k).2.1 = c + ps.length ∧
      (parentsFold ps bd c k).2.2 + bd.length = k + (parentsFold ps bd c k).1.length ∧
      (bd.Nodup → (parentsFold ps bd c k).1.Nodup) := by
  induction ps with
  | nil => simp [parentsFold]
  | cons p rest ih =>
    intro bd c k
    by_cases hp : p ∈ bd
    · simp only [parentsFold, if_pos hp]
      obtain ⟨hm, hc, hk, hn⟩ := ih bd (c + 1) k
      refine ⟨?_, ?_, hk, hn⟩
      · intro x
        rw [hm, List.mem_cons]
        constructor
        · rintro (h | h)
          · exact Or.inl h
          · exact Or.inr (Or.inr h)
        · rintro (h | (rfl | h))
          · exact Or.inl h
          · exact Or.inl hp
          · exact Or.inr h
      · rw [hc, List.length_cons]; omega
    · simp only [parentsFold, if_neg hp]
      obtain ⟨hm, hc, hk, hn⟩ := ih (bd ++ [p]) (c + 1) (k + 1)
      refine ⟨?_, ?_, ?_, ?_⟩
      · intro x
        rw [hm, List.mem_append, List.mem_singleton, List.mem_cons]
        tauto
      · rw [hc, List.length_cons]; omega
      · rw [List.length_append, List.length_singleton] at hk; omega
      · intro hnd
        apply hn
        rw [List.nodup_append]
        refine ⟨hnd, List.nodup_singleton p, ?_⟩
        intro a ha hb
        rw [List.mem_singleton] at hb
        exact hp (hb ▸ ha)

theorem parentsFold_absorb (ps : List Nat) :
    ∀ bd c k, (∀ p ∈ ps, p ∈ bd) → parentsFold ps bd c k = (bd, c + ps.length, k) := by
  induction ps with
  | nil => intro bd c k _; rfl
  | cons p rest ih =>
    intro bd c k h
    simp only [parentsFold, if_pos (h p (List.mem_cons_self p rest))]
    rw [ih bd (c + 1) k (fun q hq => h q (List.mem_cons_of_mem p hq))]
    simp only [List.length_cons]
    have hcc : c + 1 + rest.length = c + (rest.length + 1) := by omega
    rw [hcc]

theorem instrParents_length (M : Module) (vs : List Value) :
    (instrParents M vs).length = (instrIds vs).length := by
  simp [instrParents]

theorem initBasicDeps_eq (M : Module) (S R : Function) (st : AState) :
    initBasicDeps M S R st =
      { st with
        basicDeps := (parentsFold (instrParents M R.users)
          (parentsFold (instrParents M S.users) st.basicDeps st.sendCounter st.sendBBCounter).1
          st.recvCounter st.recvBBCounter).1
        sendCounter :=
          (parentsFold (instrParents M S.users) st.basicDeps st.sendCounter st.sendBBCounter).2.1
        sendBBCounter :=
          (parentsFold (instrParents M S.users) st.basicDeps st.sendCounter st.sendBBCounter).2.2
        recvCounter := (parentsFold (instrParents M R.users)
          (parentsFold (instrParents M S.users) st.basicDeps st.sendCounter st.sendBBCounter).1
          st.recvCounter st.recvBBCounter).2.1
        recvBBCounter := (parentsFold (instrParents M R.users)
          (parentsFold (instrParents M S.users) st.basicDeps st.sendCounter st.sendBBCounter).1
          st.recvCounter st.recvBBCounter).2.2 } := by
  simp only [initBasicDeps, seedSinkUses_eq_parentsFold]

theorem initBasicDeps_init_spec (M : Module) (S R : Function) :
    (∀ x, x ∈ (initBasicDeps M S R AState.init).basicDeps ↔
      x ∈ instrParents M S.users ∨ x ∈ instrParents M R.users) ∧
    (initBasicDeps M S R AState.init).sendCounter = (instrIds S.users).length ∧
    (initBasicDeps M S R AState.init).recvCounter = (instrIds R.users).length ∧
    (initBasicDeps M S R AState.init).sendBBCounter =
      (instrParents M S.users).toFinset.card ∧
    (initBasicDeps M S R AState.init).recvBBCounter =
      ((instrParents M R.users).toFinset \ (instrParents M S.users).toFinset).card := by
  rw [initBasicDeps_eq]
  dsimp only [AState.init]
  obtain ⟨hm1, hc1, hk1, hn1⟩ := parentsFold_spec (instrParents M S.users) [] 0 0
  obtain ⟨hm2, hc2, hk2, hn2⟩ :=
    parentsFold_spec (instrParents M R.users)
      (parentsFold (instrParents M S.users) [] 0 0).1 0 0
  have hnodup1 : (parentsFold (instrParents M S.users) [] 0 0).1.Nodup :=
    hn1 List.nodup_nil
  have hnodup2 : (parentsFold (instrParents M R.users)
      (parentsFold (instrParents M S.users) [] 0 0).1 0 0).1.Nodup := hn2 hnodup1
  have hfs1 : (parentsFold (instrParents M S.users) [] 0 0).1.toFinset =
      (instrParents M S.users).toFinset := by
    apply Finset.ext
    intro x
    rw [List.mem_toFinset, List.mem_toFinset, hm1]
    simp
  have hfs2 : (parentsFold (instrParents M R.users)
      (parentsFold (instrParents M S.users) [] 0 0).1 0 0).1.toFinset =
      (instrParents M S.users).toFinset ∪ (instrParents M R.users).toFinset := by
    apply Finset.ext
    intro x
    rw [List.mem_toFinset, Finset.mem_union, List.mem_toFinset, List.mem_toFinset,
      hm2, hm1]
    simp
  have hlen1 : (parentsFold (instrParents M S.users) [] 0 0).1.length =
      (instrParents M S.users).toFinset.card := by
    rw [← List.toFinset_card_of_nodup hnodup1, hfs1]
  have hlen2 : (parentsFold (instrParents M R.users)
      (parentsFold (instrParents M S.users) [] 0 0).1 0 0).1.length =
      ((instrParents M S.users).toFinset ∪ (instrParents M R.users).toFinset).card := by
    rw [← List.toFinset_card_of_nodup hnodup2, hfs2]
  have hsd := Finset.card_sdiff_add_card
    (instrParents M R.users).toFinset (instrParents M S.users).toFinset
  rw [Finset.union_comm] at hsd
  refine ⟨?_, ?_, ?_, ?_, ?_⟩
  · intro x
    rw [hm2, hm1]
    simp
  · rw [hc1, instrParents_length]; omega
  · rw [hc2, instrParents_length]; omega
  · rw [List.length_nil] at hk1
    omega
  · omega

theorem reach_mem (M : Module) :
    ∀ fuel wl deps d, reachFixpoint M fuel wl deps = some d →
      (∀ i ∈ deps, i ∈ d) ∧ (∀ i ∈ wl, i ∈ d) := by
  intro fuel
  induction fuel with
  | zero =>
    intro wl deps d h
    cases wl with
    | nil =>
      simp only [reachFixpoint, Option.some.injEq] at h
      subst h
      exact ⟨fun i hi => hi, fun i hi => absurd hi (List.not_mem_nil i)⟩
    | cons v wl' => simp [reachFixpoint] at h
  | succ n ih =>
    intro wl deps d h
    cases wl with
    | nil =>
      simp only [reachFixpoint, Option.some.injEq] at h
      subst h
      exact ⟨fun i hi => hi, fun i hi => absurd hi (List.not_mem_nil i)⟩
    | cons v wl' =>
      simp only [reachFixpoint] at h
      by_cases hv : v ∈ deps
      · rw [if_pos hv] at h
        obtain ⟨hd, hw⟩ := ih _ _ _ h
        refine ⟨hd, ?_⟩
        intro i hi
        rcases List.mem_cons.mp hi with heq | hi'
        · exact heq ▸ hd _ hv
        · exact hw _ ((mem_pushInstrs _ _ _).mpr (Or.inr hi'))
      · rw [if_neg hv] at h
        obtain ⟨hd, hw⟩ := ih _ _ _ h
        refine ⟨fun i hi => hd _ (List.mem_append_left _ hi), ?_⟩
        intro i hi
        rcases List.mem_cons.mp hi with heq | hi'
        · exact heq ▸ hd _ (List.mem_append_right _ (List.mem_singleton_self _))
        · apply hw
          by_cases ha : (M.instrOf v).isAlloca = true
          · rw [if_pos ha]
            exact (mem_pushInstrs _ _ _).mpr
              (Or.inr ((mem_pushInstrs _ _ _).mpr (Or.inr hi')))
          · rw [if_neg ha]
            exact (mem_pushInstrs _ _ _).mpr (Or.inr hi')

theorem reach_closed (M : Module) :
    ∀ fuel wl deps d, reachFixpoint M fuel wl deps = some d →
      pendingClosed M wl deps → closedDeps M d := by
  intro fuel
  induction fuel with
  | zero =>
    intro wl deps d h hp
    cases wl with
    | nil =>
      simp only [reachFixpoint, Option.some.injEq] at h
      subst h
      intro i hi
      obtain ⟨h1, h2⟩ := hp i hi
      refine ⟨fun j hj => ?_, fun ha j hj => ?_⟩
      · rcases h1 j hj with hd | hw
        · exact hd
        · exact absurd hw (List.not_mem_nil j)
      · rcases h2 ha j hj with hd | hw
        · exact hd
        · exact absurd hw (List.not_mem_nil j)
    | cons v wl' => simp [reachFixpoint] at h
  | succ n ih =>
    intro wl deps d h hp
    cases wl with
    | nil =>
      simp only [reachFixpoint, Option.some.injEq] at h
      subst h
      intro i hi
      obtain ⟨h1, h2⟩ := hp i hi
      refine ⟨fun j hj => ?_, fun ha j hj => ?_⟩
      · rcases h1 j hj with hd | hw
        · exact hd
        · exact absurd hw (List.not_mem_nil j)
      · rcases h2 ha j hj with hd | hw
        · exact hd
        · exact absurd hw (List.not_mem_nil j)
    | cons v wl' =>
      simp only [reachFixpoint] at h
      by_cases hv : v ∈ deps
      · rw [if_pos hv] at h
        apply ih _ _ _ h
        intro i hi
        obtain ⟨h1, h2⟩ := hp i hi
        have step : ∀ j, j ∈ deps ∨ j ∈ v :: wl' →
            j ∈ deps ∨ j ∈ pushInstrs (M.instrOf v).operands wl' := by
          intro j hj
          rcases hj with hd | hw
          · exact Or.inl hd
          · rcases List.mem_cons.mp hw with heq | hw'
            · exact Or.inl (heq ▸ hv)
            · exact Or.inr ((mem_pushInstrs _ _ _).mpr (Or.inr hw'))
        exact ⟨fun j hj => step j (h1 j hj), fun ha j hj => step j (h2 ha j hj)⟩
      · rw [if_neg hv] at h
        apply ih _ _ _ h
        have hwl1 : ∀ j, j ∈ pushInstrs (M.instrOf v).operands wl' →
            j ∈ (if (M.instrOf v).isAlloca = true
              then pushInstrs (M.instrOf v).users (pushInstrs (M.instrOf v).operands wl')
              else pushInstrs (M.instrOf v).operands wl') := by
          intro j hj
          by_cases ha : (M.instrOf v).isAlloca = true
          · rw [if_pos ha]
            exact (mem_pushInstrs _ _ _).mpr (Or.inr hj)
          · rw [if_neg ha]
            exact hj
        intro i hi
        rcases List.mem_append.mp hi with hi' | hi''
        · obtain ⟨h1, h2⟩ := hp i hi'
          have step : ∀ j, j ∈ deps ∨ j ∈ v :: wl' →
              j ∈ deps ++ [v] ∨ j ∈ (if (M.instrOf v).isAlloca = true
                then pushInstrs (M.instrOf v).users (pushInstrs (M.instrOf v).operands wl')
                else pushInstrs (M.instrOf v).operands wl') := by
            intro j hj
            rcases hj with hd | hw
            · exact Or.inl (List.mem_append_left _ hd)
            · rcases List.mem_cons.mp hw with heq | hw'
              · exact Or.inl (heq ▸ List.mem_append_right _ (List.mem_singleton_self _))
              · exact Or.inr (hwl1 j ((mem_pushInstrs _ _ _).mpr (Or.inr hw')))
          exact ⟨fun j hj => step j (h1 j hj), fun ha j hj => step j (h2 ha j hj)⟩
        · rw [List.mem_singleton] at hi''
          subst hi''
          refine ⟨fun j hj => ?_, fun ha j hj => ?_⟩
          · exact Or.inr (hwl1 j ((mem_pushInstrs _ _ _).mpr (Or.inl hj)))
          · rw [if_pos ha]
            exact Or.inr ((mem_pushInstrs _ _ _).mpr (Or.inl hj))

theorem reach_noop (M : Module) :
    ∀ fuel wl deps d, reachFixpoint M fuel wl deps = some d →
      (∀ i ∈ wl, i ∈ deps) →
      (∀ i ∈ deps, ∀ j ∈ instrIds (M.instrOf i).operands, j ∈ deps) →
      d = deps := by
  intro fuel
  induction fuel with
  | zero =>
    intro wl deps d h hwl hcl
    cases wl with
    | nil =>
      simp only [reachFixpoint, Option.some.injEq] at h
      exact h.symm
    | cons v wl' => simp [reachFixpoint] at h
  | succ n ih =>
    intro wl deps d h hwl hcl
    cases wl with
    | nil =>
      simp only [reachFixpoint, Option.some.injEq] at h
      exact h.symm
    | cons v wl' =>
      simp only [reachFixpoint] at h
      have hv : v ∈ deps := hwl v (List.mem_cons_self v wl')
      rw [if_pos hv] at h
      apply ih _ _ _ h ?_ hcl
      intro i hi
      rcases (mem_pushInstrs _ _ _).mp hi with hop | hw
      · exact hcl v hv i hop
      · exact hwl i (List.mem_cons_of_mem v hw)

theorem justifiedBy_mono (M : Module) (seeds deps deps' : List Nat)
    (hsub : ∀ x ∈ deps, x ∈ deps') (i : Nat) :
    justifiedBy M seeds deps i → justifiedBy M seeds deps' i := by
  rintro (h | ⟨m, hm, hne, hop⟩ | ⟨m, hm, ha, hu⟩)
  · exact Or.inl h
  · exact Or.inr (Or.inl ⟨m, hsub m hm, hne, hop⟩)
  · exact Or.inr (Or.inr ⟨m, hsub m hm, ha, hu⟩)

theorem reach_justified (M : Module) (seeds : List Nat) :
    ∀ fuel wl deps d, reachFixpoint M fuel wl deps = some d →
      (∀ i ∈ wl, justifiedBy M seeds deps i) →
      (∀ i ∈ deps, justifiedBy M seeds deps i) →
      ∀ i ∈ d, justifiedBy M seeds d i := by
  intro fuel
  induction fuel with
  | zero =>
    intro wl deps d h hwl hdeps
    cases wl with
    | nil =>
      simp only [reachFixpoint, Option.some.injEq] at h
      subst h
      exact hdeps
    | cons v wl' => simp [reachFixpoint] at h
  | succ n ih =>
    intro wl deps d h hwl hdeps
    cases wl with
    | nil =>
      simp only [reachFixpoint, Option.some.injEq] at h
      subst h
      exact hdeps
    | cons v wl' =>
      simp only [reachFixpoint] at h
      by_cases hv : v ∈ deps
      · rw [if_pos hv] at h
        apply ih _ _ _ h ?_ hdeps
        intro i hi
        rcases (mem_pushInstrs _ _ _).mp hi with hop | hw
        · by_cases hiv : i = v
          · exact hiv ▸ hwl v (List.mem_cons_self v wl')
          · exact Or.inr (Or.inl ⟨v, hv, fun hvv => hiv hvv.symm, hop⟩)
        · exact hwl i (List.mem_cons_of_mem v hw)
      · rw [if_neg hv] at h
        have hsub : ∀ x ∈ deps, x ∈ deps ++ [v] := fun x hx => List.mem_append_left _ hx
        have hvmem : v ∈ deps ++ [v] := List.mem_append_right _ (List.mem_singleton_self _)
        have hvj : justifiedBy M seeds (deps ++ [v]) v :=
          justifiedBy_mono M seeds deps _ hsub v (hwl v (List.mem_cons_self v wl'))
        apply ih _ _ _ h
        · intro i hi
          have hops : i ∈ pushInstrs (M.instrOf v).operands wl' →
              justifiedBy M seeds (deps ++ [v]) i := by
            intro hi'
            rcases (mem_pushInstrs _ _ _).mp hi' with hop | hw
            · by_cases hiv : i = v
              · exact hiv ▸ hvj
              · exact Or.inr (Or.inl ⟨v, hvmem, fun hvv => hiv hvv.symm, hop⟩)
            · exact justifiedBy_mono M seeds deps _ hsub i
                (hwl i (List.mem_cons_of_mem v hw))
          by_cases ha : (M.instrOf v).isAlloca = true
          · rw [if_pos ha] at hi
            rcases (mem_pushInstrs _ _ _).mp hi with husr | hrest
            · exact Or.inr (Or.inr ⟨v, hvmem, ha, husr⟩)
            · exact hops hrest
          · rw [if_neg ha] at hi
            exact hops hi
        · intro i hi
          rcases List.mem_append.mp hi with hi' | hi''
          · exact justifiedBy_mono M seeds deps _ hsub i (hdeps i hi')
          · rw [List.mem_singleton] at hi''
            exact hi'' ▸ hvj

theorem runOnModule_ok_some (sendName recvName : String) (M : Module) (st : AState)
    (fuel : Nat) (s : AState)
    (h : runOnModule sendName recvName M st fuel = Except.ok (some s)) :
    ∃ S R d, initSendRecv sendName recvName M = Except.ok (S, R) ∧
      reachFixpoint M fuel
        (initWorklist M (initBasicDeps M S R st).basicDeps st.worklist)
        (initBasicDeps M S R st).deps = some d ∧
      s = { initBasicDeps M S R st with worklist := [], deps := d } := by
  unfold runOnModule at h
  cases hsr : initSendRecv sendName recvName M with
  | error e =>
    rw [hsr] at h
    simp at h
  | ok p =>
    obtain ⟨S, R⟩ := p
    rw [hsr] at h
    dsimp only at h
    cases hre : reachFixpoint M fuel
        (initWorklist M (initBasicDeps M S R st).basicDeps st.worklist)
        (initBasicDeps M S R st).deps with
    | none =>
      rw [hre] at h
      simp at h
    | some d =>
      rw [hre] at h
      simp only [Except.ok.injEq, Option.some.injEq] at h
      exact ⟨S, R, d, rfl, hre, h.symm⟩

theorem runOnModule_error (sendName recvName : String) (M : Module) (st : AState)
    (fuel : Nat) (e : SinkError)
    (h : initSendRecv sendName recvName M = Except.error e) :
    runOnModule sendName recvName M st fuel = Except.error e := by
  unfold runOnModule
  rw [h]

theorem optCount_le_one (o : Option Function) : optCount o ≤ 1 := by
  cases o <;> simp [optCount]

theorem initSendRecvLoop_ambiguous (sendName recvName : String)
    (hne : sendName ≠ recvName) :
    ∀ fs send recv,
      (2 ≤ countName sendName fs + optCount send ∨
       2 ≤ countName recvName fs + optCount recv) →
      initSendRecvLoop sendName recvName fs send recv =
        Except.error SinkError.ambiguous := by
  intro fs
  induction fs with
  | nil =>
    intro send recv h
    exfalso
    have h1 := optCount_le_one send
    have h2 := optCount_le_one recv
    simp only [countName] at h
    omega
  | cons F rest ih =>
    intro send recv h
    by_cases h1 : sendName = F.name
    · have h2 : ¬recvName = F.name := fun hr => hne (h1.trans hr.symm)
      cases send with
      | some s => simp [initSendRecvLoop, if_pos h1]
      | none =>
        simp only [initSendRecvLoop, if_pos h1]
        apply ih (some F) recv
        simp only [countName, if_pos h1, if_neg h2, optCount] at h ⊢
        rcases h with h | h
        · left; omega
        · right; omega
    · by_cases h2 : recvName = F.name
      · cases recv with
        | some r => simp [initSendRecvLoop, if_neg h1, if_pos h2]
        | none =>
          simp only [initSendRecvLoop, if_neg h1, if_pos h2]
          apply ih send (some F)
          simp only [countName, if_neg h1, if_pos h2, optCount] at h ⊢
          rcases h with h | h
          · left; omega
          · right; omega
      · simp only [initSendRecvLoop, if_neg h1, if_neg h2]
        apply ih send recv
        simp only [countName, if_neg h1, if_neg h2] at h
        rcases h with h | h
        · left; omega
        · right; omega

theorem initSendRecvLoop_missing (sendName recvName : String)
    (hne : sendName ≠ recvName) :
    ∀ fs send recv,
      countName sendName fs + optCount send ≤ 1 →
      countName recvName fs + optCount recv ≤ 1 →
      (countName sendName fs + optCount send = 0 ∨
       countName recvName fs + optCount recv = 0) →
      initSendRecvLoop sendName recvName fs send recv =
        Except.error SinkError.missing := by
  intro fs
  induction fs with
  | nil =>
    intro send recv _ _ hz
    simp only [countName, Nat.zero_add] at hz
    rcases hz with hz | hz
    · have hsend : send = none := by
        cases send with
        | none => rfl
        | some s => simp [optCount] at hz
      subst hsend
      cases recv <;> rfl
    · have hrecv : recv = none := by
        cases recv with
        | none => rfl
        | some r => simp [optCount] at hz
      subst hrecv
      cases send <;> rfl
  | cons F rest ih =>
    intro send recv hs hr hz
    by_cases h1 : sendName = F.name
    · have h2 : ¬recvName = F.name := fun hrn => hne (h1.trans hrn.symm)
      simp only [countName, if_pos h1, if_neg h2] at hs hr hz
      cases send with
      | some s => simp [optCount] at hs
      | none =>
        simp only [initSendRecvLoop, if_pos h1]
        apply ih (some F) recv
        · simp only [optCount] at hs ⊢; omega
        · simpa using hr
        · simp only [optCount] at hz ⊢
          rcases hz with hz | hz
          · omega
          · right; omega
    · by_cases h2 : recvName = F.name
      · simp only [countName, if_neg h1, if_pos h2] at hs hr hz
        cases recv with
        | some r => simp [optCount] at hr
        | none =>
          simp only [initSendRecvLoop, if_neg h1, if_pos h2]
          apply ih send (some F)
          · simpa using hs
          · simp only [optCount] at hr ⊢; omega
          · simp only [optCount] at hz ⊢
            rcases hz with hz | hz
            · left; omega
            · omega
      · simp only [countName, if_neg h1, if_neg h2] at hs hr hz
        simp only [initSendRecvLoop, if_neg h1, if_neg h2]
        apply ih send recv
        · omega
        · omega
        · rcases hz with hz | hz
          · left; omega
          · right; omega

theorem initSendRecvLoop_ok (sendName recvName : String)
    (hne : sendName ≠ recvName) :
    ∀ fs send recv,
      countName sendName fs + optCount send = 1 →
      countName recvName fs + optCount recv = 1 →
      ∃ s r, initSendRecvLoop sendName recvName fs send recv = Except.ok (s, r) ∧
        (send = some s ∨ (s ∈ fs ∧ sendName = s.name)) ∧
        (recv = some r ∨ (r ∈ fs ∧ recvName = r.name)) := by
  intro fs
  induction fs with
  | nil =>
    intro send recv hs hr
    simp only [countName, Nat.zero_add] at hs hr
    cases send with
    | none => simp [optCount] at hs
    | some s =>
      cases recv with
      | none => simp [optCount] at hr
      | some r => exact ⟨s, r, rfl, Or.inl rfl, Or.inl rfl⟩
  | cons F rest ih =>
    intro send recv hs hr
    by_cases h1 : sendName = F.name
    · have h2 : ¬recvName = F.name := fun hrn => hne (h1.trans hrn.symm)
      simp only [countName, if_pos h1, if_neg h2] at hs hr
      cases send with
      | some s => simp [optCount] at hs
      | none =>
        simp only [initSendRecvLoop, if_pos h1]
        obtain ⟨s, r, hl, hsor, hror⟩ := ih (some F) recv
          (by simp only [optCount] at hs ⊢; omega) (by simpa using hr)
        refine ⟨s, r, hl, ?_, ?_⟩
        · rcases hsor with heq | ⟨hmem, hname⟩
          · have : s = F := by injection heq.symm
            exact Or.inr ⟨this ▸ List.mem_cons_self F rest, this ▸ h1⟩
          · exact Or.inr ⟨List.mem_cons_of_mem F hmem, hname⟩
        · rcases hror with heq | ⟨hmem, hname⟩
          · exact Or.inl heq
          · exact Or.inr ⟨List.mem_cons_of_mem F hmem, hname⟩
    · by_cases h2 : recvName = F.name
      · simp only [countName, if_neg h1, if_pos h2] at hs hr
        cases recv with
        | some r => simp [optCount] at hr
        | none =>
          simp only [initSendRecvLoop, if_neg h1, if_pos h2]
          obtain ⟨s, r, hl, hsor, hror⟩ := ih send (some F)
            (by simpa using hs) (by simp only [optCount] at hr ⊢; omega)
          refine ⟨s, r, hl, ?_, ?_⟩
          · rcases hsor with heq | ⟨hmem, hname⟩
            · exact Or.inl heq
            · exact Or.inr ⟨List.mem_cons_of_mem F hmem, hname⟩
          · rcases hror with heq | ⟨hmem, hname⟩
            · have : r = F := by injection heq.symm
              exact Or.inr ⟨this ▸ List.mem_cons_self F rest, this ▸ h2⟩
            · exact Or.inr ⟨List.mem_cons_of_mem F hmem, hname⟩
      · simp only [countName, if_neg h1, if_neg h2] at hs hr
        simp only [initSendRecvLoop, if_neg h1, if_neg h2]
        obtain ⟨s, r, hl, hsor, hror⟩ := ih send recv (by omega) (by omega)
        refine ⟨s, r, hl, ?_, ?_⟩
        · rcases hsor with heq | ⟨hmem, hname⟩
          · exact Or.inl heq
          · exact Or.inr ⟨List.mem_cons_of_mem F hmem, hname⟩
        · rcases hror with heq | ⟨hmem, hname⟩
          · exact Or.inl heq
          · exact Or.inr ⟨List.mem_cons_of_mem F hmem, hname⟩

theorem countName_zero (n : String) :
    ∀ fs, countName n fs = 0 → ∀ g ∈ fs, n ≠ g.name := by
  intro fs
  induction fs with
  | nil => intro _ g hg; exact absurd hg (List.not_mem_nil g)
  | cons F rest ih =>
    intro h g hg
    simp only [countName] at h
    by_cases hF : n = F.name
    · rw [if_pos hF] at h; omega
    · rw [if_neg hF] at h
      rcases List.mem_cons.mp hg with rfl | hg'
      · exact hF
      · exact ih (by omega) g hg'

theorem countName_unique (n : String) :
    ∀ fs, countName n fs = 1 → ∀ s ∈ fs, n = s.name →
      ∀ g ∈ fs, n = g.name → g = s := by
  intro fs
  induction fs with
  | nil => intro _ s hs; exact absurd hs (List.not_mem_nil s)
  | cons F rest ih =>
    intro h s hs hsn g hg hgn
    simp only [countName] at h
    by_cases hF : n = F.name
    · rw [if_pos hF] at h
      have hz : countName n rest = 0 := by omega
      have hsF : s = F := by
        rcases List.mem_cons.mp hs with rfl | hs'
        · rfl
        · exact absurd hsn (countName_zero n rest hz s hs')
      have hgF : g = F := by
        rcases List.mem_cons.mp hg with rfl | hg'
        · rfl
        · exact absurd hgn (countName_zero n rest hz g hg')
      rw [hsF, hgF]
    · rw [if_neg hF] at h
      have hs' : s ∈ rest := by
        rcases List.mem_cons.mp hs with rfl | hs'
        · exact absurd hsn hF
        · exact hs'
      have hg' : g ∈ rest := by
        rcases List.mem_cons.mp hg with rfl | hg'
        · exact absurd hgn hF
        · exact hg'
      exact ih (by omega) s hs' hsn g hg' hgn

theorem initSendRecvLoop_same_no_recv (n : String) :
    ∀ fs send, countName n fs = 0 →
      initSendRecvLoop n n fs send none = Except.error SinkError.missing := by
  intro fs
  induction fs with
  | nil => intro send _; cases send <;> rfl
  | cons F rest ih =>
    intro send h
    simp only [countName] at h
    have hF : ¬n = F.name := by
      by_cases hF : n = F.name
      · rw [if_pos hF] at h; omega
      · exact hF
    rw [if_neg hF] at h
    simp only [initSendRecvLoop, if_neg hF]
    exact ih send (by omega)

theorem initSendRecvLoop_same_one (n : String) :
    ∀ fs, countName n fs = 1 →
      initSendRecvLoop n n fs none none = Except.error SinkError.missing := by
  intro fs
  induction fs with
  | nil => intro h; simp [countName] at h
  | cons F rest ih =>
    intro h
    simp only [countName] at h
    by_cases hF : n = F.name
    · rw [if_pos hF] at h
      simp only [initSendRecvLoop, if_pos hF]
      exact initSendRecvLoop_same_no_recv n rest (some F) (by omega)
    · rw [if_neg hF] at h
      simp only [initSendRecvLoop, if_neg hF]
      exact ih (by omega)

theorem reachCyc_periodic : ∀ fuel,
    reachFixpoint ModCyc fuel [1] [1, 2] = none ∧
    reachFixpoint ModCyc fuel [2] [1, 2] = none := by
  intro fuel
  induction fuel with
  | zero => exact ⟨rfl, rfl⟩
  | succ n ih =>
    constructor
    · have hstep : reachFixpoint ModCyc (n + 1) [1] [1, 2] =
          reachFixpoint ModCyc n [2] [1, 2] := rfl
      rw [hstep]
      exact ih.2
    · have hstep : reachFixpoint ModCyc (n + 1) [2] [1, 2] =
          reachFixpoint ModCyc n [1] [1, 2] := rfl
      rw [hstep]
      exact ih.1

theorem reachCyc_diverges : ∀ fuel, reachFixpoint ModCyc fuel [1] [] = none := by
  intro fuel
  match fuel with
  | 0 => rfl
  | 1 => rfl
  | n + 2 =>
    have hstep : reachFixpoint ModCyc (n + 2) [1] [] =
        reachFixpoint ModCyc n [1] [1, 2] := rfl
    rw [hstep]
    exact (reachCyc_periodic n).1

/-- C1: on every module on which the closure loop terminates with resolved
sinks (a fresh invocation of `runOnModule` returns a final state), the
final `Deps` set is closed under both rules: every instruction operand of
a member is a member, and every instruction user of a stack-allocation
member is a member. -/
theorem claim1_deps_closed (sendName recvName : String) (M : Module) (fuel : Nat)
    (s : AState)
    (h : runOnModule sendName recvName M AState.init fuel = Except.ok (some s)) :
    closedDeps M s.deps := by
  obtain ⟨S, R, d, hsr, hre, hs⟩ := runOnModule_ok_some _ _ _ _ _ _ h
  have hdeps0 : (initBasicDeps M S R AState.init).deps = ([] : List Nat) := rfl
  have hp : pendingClosed M
      (initWorklist M (initBasicDeps M S R AState.init).basicDeps AState.init.worklist)
      (initBasicDeps M S R AState.init).deps := by
    intro i hi
    rw [hdeps0] at hi
    exact absurd hi (List.not_mem_nil i)
  have hcl := reach_closed M fuel _ _ _ hre hp
  subst hs
  exact hcl

/-- C1 witness: the closure property evaluated on the concrete
scenario-S1 module. -/
theorem claim1_witness : closedDeps Mod1 mod1Final.deps :=
  claim1_deps_closed "MPI_Send" "MPI_Recv" Mod1 100 mod1Final rfl

/-- C2: the closure loop does NOT terminate on every well-formed module:
on the phi-cycle module `ModCyc` the worklist never empties (the loop
re-pushes the two cycle instructions forever, since operands are pushed
before the `Deps` membership check), so `runOnModule` exhausts every
fuel bound.  This exhibits the code bug behind the claim. -/
theorem claim2_nontermination : ∀ fuel,
    runOnModule "MPI_Send" "MPI_Recv" ModCyc AState.init fuel = Except.ok none := by
  intro fuel
  have hconv : runOnModule "MPI_Send" "MPI_Recv" ModCyc AState.init fuel =
      (match reachFixpoint ModCyc fuel [1] [] with
        | none => Except.ok none
        | some d => Except.ok (some
            { initBasicDeps ModCyc ModCycSend ModCycRecv AState.init with
              worklist := [], deps := d })) := rfl
  rw [hconv, reachCyc_diverges fuel]

/-- C3: every instruction in the final `Deps` of a terminating fresh run
is justified: it is an instruction operand of the terminator of a
predecessor of a sink block, or an operand of some other member of `Deps`,
or a user of a stack-allocation member of `Deps`. -/
theorem claim3_deps_justified (sendName recvName : String) (M : Module) (fuel : Nat)
    (s : AState) (S R : Function)
    (hrun : runOnModule sendName recvName M AState.init fuel = Except.ok (some s))
    (hsr : initSendRecv sendName recvName M = Except.ok (S, R)) :
    ∀ i ∈ s.deps,
      (∃ b, (b ∈ instrParents M S.users ∨ b ∈ instrParents M R.users) ∧
        ∃ p ∈ (M.blockOf b).preds,
          i ∈ instrIds (M.instrOf (M.blockOf p).terminator).operands) ∨
      (∃ m, m ∈ s.deps ∧ m ≠ i ∧ i ∈ instrIds (M.instrOf m).operands) ∨
      (∃ m, m ∈ s.deps ∧ (M.instrOf m).isAlloca = true ∧
        i ∈ instrIds (M.instrOf m).users) := by
  obtain ⟨S', R', d, hsr', hre, hs⟩ := runOnModule_ok_some _ _ _ _ _ _ hrun
  rw [hsr] at hsr'
  simp only [Except.ok.injEq, Prod.mk.injEq] at hsr'
  obtain ⟨hS, hR⟩ := hsr'
  subst hS
  subst hR
  have hdeps0 : (initBasicDeps M S R AState.init).deps = ([] : List Nat) := rfl
  have hj := reach_justified M
    (initWorklist M (initBasicDeps M S R AState.init).basicDeps AState.init.worklist)
    fuel _ _ _ hre (fun i hi => Or.inl hi)
    (by
      intro i hi
      rw [hdeps0] at hi
      exact absurd hi (List.not_mem_nil i))
  subst hs
  intro i hi
  rcases hj i hi with hseed | hop | husr
  · left
    rcases (initWorklist_mem M _ _ _).mp hseed with ⟨b, hb, p, hp, hio⟩ | hnil
    · exact ⟨b, ((initBasicDeps_init_spec M S R).1 b).mp hb, p, hp, hio⟩
    · have hwl0 : AState.init.worklist = ([] : List Nat) := rfl
      rw [hwl0] at hnil
      exact absurd hnil (List.not_mem_nil i)
  · exact Or.inr (Or.inl hop)
  · exact Or.inr (Or.inr husr)

/-- C3 witness: the justification of the store instruction 2 of the
scenario-S1 module (it is a user of the stack allocation 1, a member of
`Deps`). -/
theorem claim3_witness :
    (∃ b, (b ∈ instrParents Mod1 Mod1Send.users ∨ b ∈ instrParents Mod1 Mod1Recv.users) ∧
      ∃ p ∈ (Mod1.blockOf b).preds,
        2 ∈ instrIds (Mod1.instrOf (Mod1.blockOf p).terminator).operands) ∨
    (∃ m, m ∈ mod1Final.deps ∧ m ≠ 2 ∧ 2 ∈ instrIds (Mod1.instrOf m).operands) ∨
    (∃ m, m ∈ mod1Final.deps ∧ (Mod1.instrOf m).isAlloca = true ∧
      2 ∈ instrIds (Mod1.instrOf m).users) :=
  claim3_deps_justified "MPI_Send" "MPI_Recv" Mod1 100 mod1Final Mod1Send Mod1Recv
    rfl rfl 2 (by decide)

/-- C8: on the concrete scenario-S1 module the analysis terminates with
`Deps` containing %c (4), %v (3) and %a (1), the stack-allocation
projection is exactly the alloca %a, and the send call-site and
send-block counters are both 1. -/
theorem claim8_scenario_s1 :
    runOnModule "MPI_Send" "MPI_Recv" Mod1 AState.init 100 =
      Except.ok (some mod1Final) ∧
    4 ∈ mod1Final.deps ∧ 3 ∈ mod1Final.deps ∧ 1 ∈ mod1Final.deps ∧
    allocaDeps Mod1 mod1Final.deps = [1] ∧
    mod1Final.sendCounter = 1 ∧ mod1Final.sendBBCounter = 1 :=
  ⟨rfl, by decide, by decide, by decide, by decide, rfl, rfl⟩

/-- C9: when every sink call site lies in a block with no predecessors,
the worklist receives no seeds, the final `Deps` is empty, the analysis
returns the seeding state unchanged, and the four counters still reflect
the sink calls found. -/
theorem claim9_entry_sinks (sendName recvName : String) (M : Module) (fuel : Nat)
    (S R : Function)
    (hsr : initSendRecv sendName recvName M = Except.ok (S, R))
    (hp : ∀ b ∈ instrParents M S.users ++ instrParents M R.users,
      (M.blockOf b).preds = []) :
    initWorklist M (initBasicDeps M S R AState.init).basicDeps [] = [] ∧
    runOnModule sendName recvName M AState.init fuel =
      Except.ok (some (initBasicDeps M S R AState.init)) ∧
    (initBasicDeps M S R AState.init).deps = [] ∧
    (initBasicDeps M S R AState.init).sendCounter = (instrIds S.users).length ∧
    (initBasicDeps M S R AState.init).recvCounter = (instrIds R.users).length ∧
    (initBasicDeps M S R AState.init).sendBBCounter =
      (instrParents M S.users).toFinset.card ∧
    (initBasicDeps M S R AState.init).recvBBCounter =
      ((instrParents M R.users).toFinset \ (instrParents M S.users).toFinset).card := by
  obtain ⟨hmem, hc1, hc2, hk1, hk2⟩ := initBasicDeps_init_spec M S R
  have hpred : ∀ b ∈ (initBasicDeps M S R AState.init).basicDeps,
      (M.blockOf b).preds = [] := by
    intro b hb
    apply hp
    rcases (hmem b).mp hb with hbs | hbr
    · exact List.mem_append_left _ hbs
    · exact List.mem_append_right _ hbr
  have hwl := initWorklist_preds_nil M _ hpred []
  have hdeps0 : (initBasicDeps M S R AState.init).deps = ([] : List Nat) := rfl
  refine ⟨hwl, ?_, hdeps0, hc1, hc2, hk1, hk2⟩
  unfold runOnModule
  rw [hsr]
  dsimp only
  have hwl0 : AState.init.worklist = ([] : List Nat) := rfl
  rw [hwl0, hwl, hdeps0]
  have hre : reachFixpoint M fuel [] [] = some [] := by cases fuel <;> rfl
  rw [hre]
  rfl

/-- C9 witness: the shared-block module has its single sink block at the
entry (no predecessors); the conclusion evaluated there. -/
theorem claim9_witness :
    initWorklist Mboth (initBasicDeps Mboth MbothSend MbothRecv AState.init).basicDeps [] = [] ∧
    runOnModule "MPI_Send" "MPI_Recv" Mboth AState.init 3 =
      Except.ok (some (initBasicDeps Mboth MbothSend MbothRecv AState.init)) ∧
    (initBasicDeps Mboth MbothSend MbothRecv AState.init).deps = [] ∧
    (initBasicDeps Mboth MbothSend MbothRecv AState.init).sendCounter =
      (instrIds MbothSend.users).length ∧
    (initBasicDeps Mboth MbothSend MbothRecv AState.init).recvCounter =
      (instrIds MbothRecv.users).length ∧
    (initBasicDeps Mboth MbothSend MbothRecv AState.init).sendBBCounter =
      (instrParents Mboth MbothSend.users).toFinset.card ∧
    (initBasicDeps Mboth MbothSend MbothRecv AState.init).recvBBCounter =
      ((instrParents Mboth MbothRecv.users).toFinset \
        (instrParents Mboth MbothSend.users).toFinset).card :=
  claim9_entry_sinks "MPI_Send" "MPI_Recv" Mboth 3 MbothSend MbothRecv rfl (by decide)

theorem initBasicDeps_absorb (M : Module) (S R : Function) (st : AState)
    (hS : ∀ p ∈ instrParents M S.users, p ∈ st.basicDeps)
    (hR : ∀ p ∈ instrParents M R.users, p ∈ st.basicDeps) :
    initBasicDeps M S R st =
      { st with
        sendCounter := st.sendCounter + (instrIds S.users).length
        recvCounter := st.recvCounter + (instrIds R.users).length } := by
  rw [initBasicDeps_eq,
    parentsFold_absorb (instrParents M S.users) st.basicDeps st.sendCounter
      st.sendBBCounter hS]
  dsimp only
  rw [parentsFold_absorb (instrParents M R.users) st.basicDeps st.recvCounter
      st.recvBBCounter hR]
  dsimp only
  rw [instrParents_length, instrParents_length]

/-- C4 (amended): after sink-block seeding from a fresh state, the send
and receive call-site counters equal the numbers of uses of the
respective sink whose user is an instruction; the send distinct-block
counter equals the number of distinct blocks containing at least one send
call; the receive distinct-block counter equals the number of distinct
blocks containing at least one receive call but no send call, because the
send enumeration runs first and already inserted the shared blocks. -/
theorem claim4_counters (M : Module) (S R : Function) :
    (initBasicDeps M S R AState.init).sendCounter = (instrIds S.users).length ∧
    (initBasicDeps M S R AState.init).recvCounter = (instrIds R.users).length ∧
    (initBasicDeps M S R AState.init).sendBBCounter =
      (instrParents M S.users).toFinset.card ∧
    (initBasicDeps M S R AState.init).recvBBCounter =
      ((instrParents M R.users).toFinset \ (instrParents M S.users).toFinset).card := by
  obtain ⟨_, hc1, hc2, hk1, hk2⟩ := initBasicDeps_init_spec M S R
  exact ⟨hc1, hc2, hk1, hk2⟩

/-- C4 counterexample: on the shared-block module the receive
distinct-block counter ends at 0, while the number of distinct blocks
containing at least one receive call is 1, so the claimed identity for
the receive-block counter fails. -/
theorem claim4_counterexample :
    (initBasicDeps Mboth MbothSend MbothRecv AState.init).recvBBCounter = 0 ∧
    (instrParents Mboth MbothRecv.users).toFinset.card = 1 ∧
    (initBasicDeps Mboth MbothSend MbothRecv AState.init).recvBBCounter ≠
      (instrParents Mboth MbothRecv.users).toFinset.card := by
  refine ⟨rfl, by decide, by decide⟩

/-- C5: on every module whose sink calls are exactly one send call and one
receive call, both in the same block `b`, that block is the single element
of `SinkBlocks`, the send and receive call-site counters are 1, the
send-block counter is 1 and the receive-block counter is 0 (the send
enumeration runs first and inserts the block before the receive
enumeration sees it). -/
theorem claim5_shared_block (M : Module) (S R : Function) (b : Nat)
    (hs : instrParents M S.users = [b])
    (hr : instrParents M R.users = [b]) :
    (initBasicDeps M S R AState.init).basicDeps = [b] ∧
    (initBasicDeps M S R AState.init).sendCounter = 1 ∧
    (initBasicDeps M S R AState.init).recvCounter = 1 ∧
    (initBasicDeps M S R AState.init).sendBBCounter = 1 ∧
    (initBasicDeps M S R AState.init).recvBBCounter = 0 := by
  have h1 : parentsFold [b] ([] : List Nat) 0 0 = ([b], 1, 1) := by
    simp [parentsFold]
  have h2 : parentsFold [b] [b] 0 0 = ([b], 1, 0) := by
    simp [parentsFold]
  rw [initBasicDeps_eq]
  dsimp only [AState.init]
  rw [hs, hr, h1]
  dsimp only
  rw [h2]
  exact ⟨rfl, rfl, rfl, rfl, rfl⟩

/-- C5 witness: the shared-block module evaluated against the theorem. -/
theorem claim5_witness :
    (initBasicDeps Mboth MbothSend MbothRecv AState.init).basicDeps = [0] ∧
    (initBasicDeps Mboth MbothSend MbothRecv AState.init).sendCounter = 1 ∧
    (initBasicDeps Mboth MbothSend MbothRecv AState.init).recvCounter = 1 ∧
    (initBasicDeps Mboth MbothSend MbothRecv AState.init).sendBBCounter = 1 ∧
    (initBasicDeps Mboth MbothSend MbothRecv AState.init).recvBBCounter = 0 :=
  claim5_shared_block Mboth MbothSend MbothRecv 0 rfl rfl

/-- C6 (amended): for distinct configured names, sink resolution fails
with the ambiguous error when either name matches two or more functions;
otherwise fails with the missing error when either name matches none;
when both names match exactly one function it returns the two unique
byte-exact matches; and every resolution failure aborts the invocation
with that error, producing no dependency set. -/
theorem claim6_sink_resolution (sendName recvName : String) (M : Module) (fuel : Nat)
    (hne : sendName ≠ recvName) :
    sinkResolutionSpec sendName recvName M fuel := by
  unfold sinkResolutionSpec initSendRecv
  refine ⟨?_, ?_, ?_, ?_⟩
  · intro h
    apply initSendRecvLoop_ambiguous sendName recvName hne M.functions none none
    simp only [optCount]
    rcases h with h | h
    · left; omega
    · right; omega
  · intro hs hr hz
    apply initSendRecvLoop_missing sendName recvName hne M.functions none none
    · simp only [optCount]; omega
    · simp only [optCount]; omega
    · simp only [optCount]
      rcases hz with hz | hz
      · left; omega
      · right; omega
  · intro hs hr
    obtain ⟨s, r, hl, hsor, hror⟩ := initSendRecvLoop_ok sendName recvName hne
      M.functions none none (by simp [optCount, hs]) (by simp [optCount, hr])
    rcases hsor with heq | ⟨hmem, hname⟩
    · exact absurd heq (by simp)
    rcases hror with heq | ⟨hmem', hname'⟩
    · exact absurd heq (by simp)
    refine ⟨s, r, hl, hmem, hname, hmem', hname', ?_, ?_⟩
    · intro g hg hgname
      exact countName_unique sendName M.functions hs s hmem hname g hg hgname
    · intro g hg hgname
      exact countName_unique recvName M.functions hr r hmem' hname' g hg hgname
  · intro e he
    exact runOnModule_error sendName recvName M AState.init fuel e he

/-- C6 witness: the contract instantiated at the scenario-S1 module with
the default distinct sink names. -/
theorem claim6_witness :
    "MPI_Send" ≠ "MPI_Recv" ∧ sinkResolutionSpec "MPI_Send" "MPI_Recv" Mod1 5 :=
  ⟨by decide, claim6_sink_resolution "MPI_Send" "MPI_Recv" Mod1 5 (by decide)⟩

/-- C6 counterexample: with both names configured as "f" on a module whose
single function is named "f", neither failure condition of the claim
holds (each name matches exactly one function), yet resolution fails with
the missing error instead of returning the unique match. -/
theorem claim6_counterexample :
    countName "f" Mf.functions = 1 ∧
    initSendRecv "f" "f" Mf = Except.error SinkError.missing := by
  exact ⟨by decide, rfl⟩

/-- C10 (amended): when the send and receive names are the same string
and exactly one function bears that name, the if/else-if chain binds it
to the send slot only, the receive slot stays empty, and resolution fails
as for a missing receive sink even though a function with the configured
receive name exists.  (With two or more functions of that name it instead
fails as for an ambiguous send sink; it never succeeds.) -/
theorem claim10_equal_names (n : String) (M : Module)
    (hc : countName n M.functions = 1) :
    initSendRecv n n M = Except.error SinkError.missing :=
  initSendRecvLoop_same_one n M.functions hc

/-- C10 witness: the one-function module named "f" with both names "f". -/
theorem claim10_witness :
    countName "f" Mf.functions = 1 ∧
    initSendRecv "f" "f" Mf = Except.error SinkError.missing :=
  ⟨by decide, claim10_equal_names "f" Mf (by decide)⟩

/-- C10 counterexample: with two functions named "f" and both names
configured as "f", resolution fails with the ambiguous error, not the
missing-receive failure the claim predicts for every module with a
matching function. -/
theorem claim10_counterexample :
    countName "f" Mff2.functions = 2 ∧
    initSendRecv "f" "f" Mff2 = Except.error SinkError.ambiguous ∧
    initSendRecv "f" "f" Mff2 ≠ Except.error SinkError.missing := by
  refine ⟨by decide, rfl, ?_⟩
  intro h
  rw [show initSendRecv "f" "f" Mff2 = Except.error SinkError.ambiguous from rfl] at h
  have hc : SinkError.ambiguous = SinkError.missing := by injection h
  exact absurd hc (by decide)

/-- C7 (amended): a second invocation of the pass on the unchanged module,
reusing the pass-object state left by a terminating first fresh
invocation, yields the same `Deps` list and the same `SinkBlocks`, but
the global call-site statistics double (they are never reset) while the
distinct-block statistics stay put (every sink block is already in the
member set `BasicDeps`). -/
theorem claim7_second_run (sendName recvName : String) (M : Module)
    (fuel1 fuel2 : Nat) (s1 s2 : AState)
    (h1 : runOnModule sendName recvName M AState.init fuel1 = Except.ok (some s1))
    (h2 : runOnModule sendName recvName M s1 fuel2 = Except.ok (some s2)) :
    s2.deps = s1.deps ∧ s2.basicDeps = s1.basicDeps ∧
    s2.sendCounter = 2 * s1.sendCounter ∧ s2.recvCounter = 2 * s1.recvCounter ∧
    s2.sendBBCounter = s1.sendBBCounter ∧ s2.recvBBCounter = s1.recvBBCounter := by
  obtain ⟨S, R, d1, hsr, hre1, hs1⟩ := runOnModule_ok_some _ _ _ _ _ _ h1
  obtain ⟨S', R', d2, hsr', hre2, hs2⟩ := runOnModule_ok_some _ _ _ _ _ _ h2
  rw [hsr] at hsr'
  simp only [Except.ok.injEq, Prod.mk.injEq] at hsr'
  obtain ⟨hS, hR⟩ := hsr'
  subst hS
  subst hR
  obtain ⟨hmem, hc1, hc2, _, _⟩ := initBasicDeps_init_spec M S R
  -- fields of the first final state
  have e1 : s1.deps = d1 := by rw [hs1]
  have e2 : s1.basicDeps = (initBasicDeps M S R AState.init).basicDeps := by rw [hs1]
  have e3 : s1.worklist = ([] : List Nat) := by rw [hs1]
  have e4 : s1.sendCounter = (instrIds S.users).length := by rw [hs1]; exact hc1
  have e5 : s1.recvCounter = (instrIds R.users).length := by rw [hs1]; exact hc2
  have e6 : s1.sendBBCounter = (initBasicDeps M S R AState.init).sendBBCounter := by
    rw [hs1]
  have e7 : s1.recvBBCounter = (initBasicDeps M S R AState.init).recvBBCounter := by
    rw [hs1]
  -- the second seeding only re-counts call sites
  have habs : initBasicDeps M S R s1 =
      { s1 with
        sendCounter := s1.sendCounter + (instrIds S.users).length
        recvCounter := s1.recvCounter + (instrIds R.users).length } := by
    apply initBasicDeps_absorb
    · intro p hp
      rw [e2]
      exact (hmem p).mpr (Or.inl hp)
    · intro p hp
      rw [e2]
      exact (hmem p).mpr (Or.inr hp)
  -- closure facts from the first run
  have hdeps0 : (initBasicDeps M S R AState.init).deps = ([] : List Nat) := rfl
  have hp : pendingClosed M
      (initWorklist M (initBasicDeps M S R AState.init).basicDeps AState.init.worklist)
      (initBasicDeps M S R AState.init).deps := by
    intro i hi
    rw [hdeps0] at hi
    exact absurd hi (List.not_mem_nil i)
  have hcl := reach_closed M fuel1 _ _ _ hre1 hp
  have hcla : ∀ i ∈ d1, ∀ j ∈ instrIds (M.instrOf i).operands, j ∈ d1 :=
    fun i hi => (hcl i hi).1
  have hmemd := reach_mem M fuel1 _ _ _ hre1
  -- the second closure run rediscovers the same set
  rw [habs] at hre2
  dsimp only at hre2
  rw [e3, e1, e2] at hre2
  have hwl0 : AState.init.worklist = ([] : List Nat) := rfl
  rw [hwl0] at hmemd
  have hd2 : d2 = d1 := by
    apply reach_noop M fuel2 _ _ _ hre2 ?_ hcla
    exact hmemd.2
  -- fields of the second final state
  have f1 : s2.deps = d2 := by rw [hs2]
  have f2 : s2.basicDeps = (initBasicDeps M S R s1).basicDeps := by rw [hs2]
  have f3 : s2.sendCounter = (initBasicDeps M S R s1).sendCounter := by rw [hs2]
  have f4 : s2.recvCounter = (initBasicDeps M S R s1).recvCounter := by rw [hs2]
  have f5 : s2.sendBBCounter = (initBasicDeps M S R s1).sendBBCounter := by rw [hs2]
  have f6 : s2.recvBBCounter = (initBasicDeps M S R s1).recvBBCounter := by rw [hs2]
  rw [habs] at f2 f3 f4 f5 f6
  dsimp only at f2 f3 f4 f5 f6
  refine ⟨?_, ?_, ?_, ?_, ?_, ?_⟩
  · rw [f1, hd2, e1]
  · rw [f2]
  · rw [f3, e4]; omega
  · rw [f4, e5]; omega
  · rw [f5]
  · rw [f6]

/-- C7 witness: the two consecutive runs on the shared-block module. -/
theorem claim7_witness :
    mbothFinal2.deps = mbothFinal1.deps ∧
    mbothFinal2.basicDeps = mbothFinal1.basicDeps ∧
    mbothFinal2.sendCounter = 2 * mbothFinal1.sendCounter ∧
    mbothFinal2.recvCounter = 2 * mbothFinal1.recvCounter ∧
    mbothFinal2.sendBBCounter = mbothFinal1.sendBBCounter ∧
    mbothFinal2.recvBBCounter = mbothFinal1.recvBBCounter :=
  claim7_second_run "MPI_Send" "MPI_Recv" Mboth 5 5 mbothFinal1 mbothFinal2 rfl rfl

/-- C7 counterexample: after the first run on the shared-block module the
send call-site counter reads 1; after the second run on the unchanged
module it reads 2 — the two invocations do not produce the same counter
values. -/
theorem claim7_counterexample :
    runOnModule "MPI_Send" "MPI_Recv" Mboth AState.init 5 =
      Except.ok (some mbothFinal1) ∧
    runOnModule "MPI_Send" "MPI_Recv" Mboth mbothFinal1 5 =
      Except.ok (some mbothFinal2) ∧
    mbothFinal2.sendCounter ≠ mbothFinal1.sendCounter :=
  ⟨rfl, rfl, by decide⟩

end MpiDep
